import Mathlib

/-!
Verification of the golem code generator (cmd/golem/main.go).

The program is embedded shallowly: Go byte slices become `List Char`,
the `bytes.Replace` / `bytes.ReplaceAll` calls become fuel-indexed
structural scanners (the fuel is always the input length, so the
functions are kernel-evaluable), and the regexp
`package (.*)\n` used by `repackage` becomes a scanner that, at each
position, matches the literal "package " followed by the rest of the
line up to and including the first newline.  `strings.Title` is
modelled for ASCII input (all inputs in this development are ASCII):
a character is title-cased exactly when the previous character is a
separator in the sense of the Go unicode package (not a letter, digit
or underscore), with the initial previous character being a space.
-/

namespace Golem

abbrev Text := List Char

def strLit (s : String) : Text := s.data

/-- Boolean test that `p` is a leading segment of `s`. -/
def startsWith : Text → Text → Bool
  | [], _ => true
  | _ :: _, [] => false
  | p :: ps, c :: cs => p == c && startsWith ps cs

/-- Boolean substring test: some leading segment of some tail of `s` is `pat`. -/
def containsSub (pat : Text) : Text → Bool
  | [] => startsWith pat []
  | c :: cs => startsWith pat (c :: cs) || containsSub pat cs

/-- All tails of a list (the list itself first, the empty list last). -/
def tailsL : Text → List Text
  | [] => [[]]
  | c :: cs => (c :: cs) :: tailsL cs

/-- All leading segments of a list (shortest first). -/
def initsL : Text → List Text
  | [] => [[]]
  | c :: cs => [] :: (initsL cs).map (fun u => c :: u)

/-- Boolean test that `s` ends with `u`. -/
def endsWithL (u s : Text) : Bool := startsWith u.reverse s.reverse

/-- Boolean test for a newline character in the text. -/
def hasNl : Text → Bool
  | [] => false
  | c :: cs => c == '\n' || hasNl cs

/-- Everything after the first newline (empty when there is none). -/
def afterNl : Text → Text
  | [] => []
  | c :: cs => if c == '\n' then cs else afterNl cs

/-- Fuel-indexed global replacement, the model of Go `bytes.ReplaceAll`
for a nonempty pattern: scan left to right, replace each
non-overlapping occurrence, continue after the replaced text.  The
fuel only needs to dominate the input length. -/
def replaceAllF (pat rep : Text) : Nat → Text → Text
  | 0, s => s
  | _ + 1, [] => []
  | f + 1, c :: cs =>
    if startsWith pat (c :: cs) && !pat.isEmpty then
      rep ++ replaceAllF pat rep f (List.drop pat.length (c :: cs))
    else
      c :: replaceAllF pat rep f cs

/-- Go `bytes.ReplaceAll file old new` for the nonempty literal
patterns used by the program. -/
def replaceAll (pat rep s : Text) : Text := replaceAllF pat rep s.length s

/-- Go `bytes.Replace file old new 1`: replace only the leftmost
occurrence, leave the text unchanged when the pattern is absent. -/
def replaceFirst (pat rep : Text) : Text → Text
  | [] => []
  | c :: cs =>
    if startsWith pat (c :: cs) && !pat.isEmpty then
      rep ++ List.drop pat.length (c :: cs)
    else
      c :: replaceFirst pat rep cs

def pkgKw : Text := strLit "package "

def pkgRep (pkg : Text) : Text := pkgKw ++ pkg ++ strLit "\n"

/-- One position of the `package (.*)\n` regexp matcher: the literal
"package " starts here and a newline occurs at or after its end. -/
def pkgMatchAt (s : Text) : Bool := startsWith pkgKw s && hasNl (List.drop 8 s)

/-- Fuel-indexed model of `regexp.MustCompile("package (.*)\n").ReplaceAll`:
each leftmost match runs from a literal "package " through the first
following newline and is replaced by "package <pkg>\n".  The package
names produced by `go/build` contain no `$`, so the template expansion
performed by `Regexp.ReplaceAll` is the identity and is not modelled. -/
def repackageF (pkg : Text) : Nat → Text → Text
  | 0, s => s
  | _ + 1, [] => []
  | f + 1, c :: cs =>
    if pkgMatchAt (c :: cs) then
      pkgRep pkg ++ repackageF pkg f (afterNl (List.drop 8 (c :: cs)))
    else
      c :: repackageF pkg f cs

/-- `repackage` from main.go. -/
def repackage (file pkg : Text) : Text := repackageF pkg file.length file

/-- Positions at which `pkgMatchAt` fails everywhere in the text:
the regexp `package (.*)\n` has no match at all. -/
def pkgMatchFree : Text → Bool
  | [] => true
  | c :: cs => !pkgMatchAt (c :: cs) && pkgMatchFree cs

/-- Go `isSeparator` restricted to ASCII: ASCII alphanumerics and the
underscore are not separators, every other ASCII character is. -/
def isSepGo (c : Char) : Bool :=
  !(('0' ≤ c && c ≤ '9') || ('a' ≤ c && c ≤ 'z') || ('A' ≤ c && c ≤ 'Z') || c == '_')

/-- ASCII title case: lower-case letters are upper-cased. -/
def toTitleA (c : Char) : Char :=
  if 'a' ≤ c && c ≤ 'z' then Char.ofNat (c.toNat - 32) else c

def goTitleAux : Bool → Text → Text
  | _, [] => []
  | prevSep, c :: cs => (if prevSep then toTitleA c else c) :: goTitleAux (isSepGo c) cs

/-- Go `strings.Title` on ASCII text: title-case every character whose
predecessor is a separator, starting from a space predecessor. -/
def goTitle (s : Text) : Text := goTitleAux true s

def genTtok : Text := strLit "genT"

def declPat : Text := strLit "type genT interface\x7b\x7d"

/-- The generated alias name `gen` + Title(kind). -/
def aliasName (kind : Text) : Text := strLit "gen" ++ goTitle kind

/-- The replacement declaration `type gen<Title kind> <kind>`. -/
def newDecl (kind : Text) : Text :=
  strLit "type gen" ++ goTitle kind ++ strLit " " ++ kind

/-- `declareType` from main.go: replace the first occurrence of the
alias declaration, then replace every remaining `genT` globally. -/
def declareType (file kind : Text) : Text :=
  replaceAll genTtok (aliasName kind) (replaceFirst declPat (newDecl kind) file)

/-- `referenceType` from main.go: replace every `AnyT` globally. -/
def referenceType (file kind : Text) : Text :=
  replaceAll (strLit "AnyT") kind file

/-- The three rewrites exactly as `main` sequences them: `declareType`
with the raw kind, `referenceType` with the derived type name, then
`repackage` with the destination package name. -/
def instantiate (input kind typename pkg : Text) : Text :=
  repackage (referenceType (declareType input kind) typename) pkg

/-- Go `strings.TrimSuffix`. -/
def trimSuffix (s suf : Text) : Text :=
  if endsWithL suf s then s.take (s.length - suf.length) else s

def dropTrailingSlash (s : Text) : Text :=
  (s.reverse.dropWhile (fun c => c == '/')).reverse

def lastComponent (s : Text) : Text :=
  (s.reverse.takeWhile (fun c => c != '/')).reverse

/-- `filepath.Base` for slash-separated paths. -/
def baseL (path : Text) : Text :=
  if path.isEmpty then strLit "." else
  let p := dropTrailingSlash path
  let q := lastComponent p
  if q.isEmpty then strLit "/" else q

def extAux : Text → Text → Text
  | [], _ => []
  | c :: rest, acc =>
    if c == '/' then []
    else if c == '.' then c :: acc
    else extAux rest (c :: acc)

/-- `filepath.Ext`: the suffix of the final path element starting at
its last dot, empty when the element has no dot. -/
def extL (path : Text) : Text := extAux path.reverse []

/-- `generic` in main.go: TrimSuffix(Base(source), Ext(source)). -/
def deriveGeneric (source : Text) : Text := trimSuffix (baseL source) (extL source)

/-- The output filename computed by main.go: `<kind>.go` in library
mode, `<generic>.go` otherwise. -/
def deriveFilename (generic kind : Text) (lib : Bool) : Text :=
  if lib then kind ++ strLit ".go" else generic ++ strLit ".go"

/-- The type name computed by main.go: Title(kind) in library mode,
Title(generic) otherwise. -/
def deriveTypename (generic kind : Text) (lib : Bool) : Text :=
  if lib then goTitle kind else goTitle generic

/-- The complete textual rewrite the program applies to the template. -/
def mainRewrite (input kind generic : Text) (lib : Bool) (pkgName : Text) : Text :=
  instantiate input kind (deriveTypename generic kind lib) pkgName

/-- The buffer written by main.go: the fixed marker line, the source
line, the time line with its trailing blank separator, then the body. -/
def emitBytes (genericPath timeStr body : Text) : Text :=
  strLit "// Code generated by `golem` package\n" ++
    (strLit "// Source: " ++ genericPath ++ strLit "\n") ++
    (strLit "// Time: " ++ timeStr ++ strLit "\n\n") ++
    body

/-- Split a text into its lines, the final newline being absorbed. -/
def linesL : Text → List Text
  | [] => []
  | c :: cs =>
    if c == '\n' then [] :: linesL cs
    else
      match linesL cs with
      | [] => [[c]]
      | l :: ls => (c :: l) :: ls

structure GoPkg where
  name : Text
  pkgRoot : Text

/-- The results the environment hands to `main`: the destination
package lookup, the template read, and the outcome of the final write. -/
structure Effects where
  importDir : Except Text GoPkg
  readFile : Except Text Text
  writeResult : Except Text Unit

inductive RunOutcome where
  | fatalExit (msg : Text)
  | success (written : Text) (logLine : Text)

def exitCodeOf : RunOutcome → Nat
  | .fatalExit _ => 1
  | .success _ _ => 0

/-- `main` from main.go.  `log.Fatal` is modelled as `fatalExit`
(process exit code 1).  The value returned by `ioutil.WriteFile` is
discarded by the source (line 193 ignores the error), so
`fx.writeResult` is never examined and the run ends in `success` with
exit code 0 whenever the package lookup and the template read succeed.
`filepath.Join` is modelled as slash concatenation (its `Clean` pass
is the identity on the well-formed paths involved). -/
def runMain (fx : Effects) (kind genericPath gopath timeStr : Text) (lib : Bool) :
    RunOutcome :=
  match fx.importDir with
  | .error e => .fatalExit e
  | .ok pkg =>
    match fx.readFile with
    | .error e => .fatalExit e
    | .ok input =>
      let source := gopath ++ strLit "/src/" ++ genericPath
      let generic := deriveGeneric source
      let typename := deriveTypename generic kind lib
      let body := repackage (referenceType (declareType input kind) typename) pkg.name
      let out := emitBytes genericPath timeStr body
      .success out (generic ++ strLit "." ++ typename)

/-- Side conditions under which a global replacement by `rep` can
neither contain nor help form an occurrence of `q`: `rep` has no `q`
inside it, no nonempty strict tail of `q` is a leading segment of
`rep` (and all such tails fit inside `rep`), and no nonempty proper
leading segment of `q` is a trailing segment of `rep`. -/
def sideCondB (q rep : Text) : Bool :=
  !containsSub q rep &&
  (match q with
   | [] => false
   | _ :: q' =>
     (tailsL q').all
       (fun v => v.isEmpty || (!startsWith v rep && decide (v.length ≤ rep.length)))) &&
  (initsL q).all (fun u => u.isEmpty || u == q || !endsWithL u rep)

/-! ### Basic facts about startsWith and containsSub -/

theorem startsWith_nil (s : Text) : startsWith [] s = true := by
  cases s <;> rfl

theorem startsWith_cons_iff {p c : Char} {ps cs : Text} :
    startsWith (p :: ps) (c :: cs) = true ↔ p = c ∧ startsWith ps cs = true := by
  simp [startsWith, Bool.and_eq_true]

theorem length_le_of_startsWith {p s : Text} (h : startsWith p s = true) :
    p.length ≤ s.length := by
  induction p generalizing s with
  | nil => simp
  | cons a ps ih =>
    cases s with
    | nil => simp [startsWith] at h
    | cons c cs =>
      rcases startsWith_cons_iff.mp h with ⟨_, h2⟩
      simpa using ih h2

theorem startsWith_refl (p : Text) : startsWith p p = true := by
  induction p with
  | nil => rfl
  | cons a ps ih => exact startsWith_cons_iff.mpr ⟨rfl, ih⟩

theorem startsWith_append_self (x y : Text) : startsWith x (x ++ y) = true := by
  induction x with
  | nil => exact startsWith_nil y
  | cons a xs ih => exact startsWith_cons_iff.mpr ⟨rfl, ih⟩

theorem startsWith_extend {p x : Text} (y : Text) (h : startsWith p x = true) :
    startsWith p (x ++ y) = true := by
  induction p generalizing x with
  | nil => exact startsWith_nil _
  | cons a ps ih =>
    cases x with
    | nil => simp [startsWith] at h
    | cons c cs =>
      rcases startsWith_cons_iff.mp h with ⟨h1, h2⟩
      exact startsWith_cons_iff.mpr ⟨h1, ih h2⟩

theorem startsWith_of_append_le {p x y : Text} (h : startsWith p (x ++ y) = true)
    (hl : p.length ≤ x.length) : startsWith p x = true := by
  induction p generalizing x with
  | nil => exact startsWith_nil _
  | cons a ps ih =>
    cases x with
    | nil => simp at hl
    | cons c cs =>
      rw [List.cons_append] at h
      rcases startsWith_cons_iff.mp h with ⟨h1, h2⟩
      exact startsWith_cons_iff.mpr ⟨h1, ih h2 (by simpa using hl)⟩

theorem startsWith_decomp {p s : Text} (h : startsWith p s = true) :
    s = p ++ s.drop p.length := by
  induction p generalizing s with
  | nil => simp
  | cons a ps ih =>
    cases s with
    | nil => simp [startsWith] at h
    | cons c cs =>
      rcases startsWith_cons_iff.mp h with ⟨h1, h2⟩
      have := ih h2
      simp [← h1, List.length_cons, List.drop_succ_cons]
      conv_lhs => rw [this]

theorem startsWith_split_long {p x y : Text} (h : startsWith p (x ++ y) = true)
    (hl : x.length < p.length) :
    p = x ++ p.drop x.length ∧ startsWith (p.drop x.length) y = true := by
  induction x generalizing p with
  | nil => simpa using h
  | cons c xs ih =>
    cases p with
    | nil => simp at hl
    | cons a ps =>
      rw [List.cons_append] at h
      rcases startsWith_cons_iff.mp h with ⟨h1, h2⟩
      rcases ih h2 (by simpa using hl) with ⟨hd, hs⟩
      refine ⟨?_, ?_⟩
      · simpa [h1, List.length_cons, List.drop_succ_cons] using congrArg (a :: ·) hd
      · simpa [List.length_cons, List.drop_succ_cons] using hs

theorem containsSub_cons (pat : Text) (c : Char) (cs : Text) :
    containsSub pat (c :: cs) = (startsWith pat (c :: cs) || containsSub pat cs) := rfl

theorem containsSub_of_startsWith {pat s : Text} (h : startsWith pat s = true) :
    containsSub pat s = true := by
  cases s with
  | nil => exact h
  | cons c cs => simp [containsSub_cons, h]

theorem containsSub_cons_of {pat : Text} {c : Char} {cs : Text}
    (h : containsSub pat cs = true) : containsSub pat (c :: cs) = true := by
  simp [containsSub_cons, h]

theorem containsSub_append_right {pat y : Text} (x : Text)
    (h : containsSub pat y = true) : containsSub pat (x ++ y) = true := by
  induction x with
  | nil => simpa using h
  | cons c cs ih => exact containsSub_cons_of ih

theorem containsSub_of_drop {pat s : Text} {n : Nat}
    (h : containsSub pat (List.drop n s) = true) : containsSub pat s = true := by
  induction n generalizing s with
  | zero => simpa using h
  | succ n ih =>
    cases s with
    | nil => simpa using h
    | cons c cs => exact containsSub_cons_of (ih (by simpa using h))

theorem containsSub_nil_pat (s : Text) : containsSub [] s = true := by
  cases s with
  | nil => rfl
  | cons c cs => simp [containsSub_cons, startsWith_nil]

theorem containsSub_append_split {pat x y : Text} (h : containsSub pat (x ++ y) = true) :
    containsSub pat x = true ∨ containsSub pat y = true ∨
      ∃ u v w, pat = u ++ v ∧ u ≠ [] ∧ v ≠ [] ∧ x = w ++ u ∧ startsWith v y = true := by
  induction x with
  | nil => exact Or.inr (Or.inl (by simpa using h))
  | cons c xs ih =>
    rw [List.cons_append, containsSub_cons, Bool.or_eq_true] at h
    rcases h with h | h
    · by_cases hl : pat.length ≤ (c :: xs).length
      · have : startsWith pat (c :: xs) = true := by
          rw [← List.cons_append] at h
          exact startsWith_of_append_le h hl
        exact Or.inl (containsSub_of_startsWith this)
      · push_neg at hl
        rw [← List.cons_append] at h
        rcases startsWith_split_long h hl with ⟨hd, hs⟩
        refine Or.inr (Or.inr ⟨c :: xs, pat.drop (c :: xs).length, [], hd, by simp, ?_, by simp, hs⟩)
        intro hv
        have : List.length pat - (xs.length + 1) = 0 := by
          simpa using congrArg List.length hv
        simp only [List.length_cons] at hl
        omega
    · rcases ih h with h1 | h1 | ⟨u, v, w, h1, h2, h3, h4, h5⟩
      · exact Or.inl (containsSub_cons_of h1)
      · exact Or.inr (Or.inl h1)
      · exact Or.inr (Or.inr ⟨u, v, c :: w, h1, h2, h3, by simp [h4], h5⟩)

/-! ### tails, inits, endsWith -/

theorem self_mem_tailsL (s : Text) : s ∈ tailsL s := by
  cases s <;> simp [tailsL]

theorem mem_tailsL_tail {a : Char} {v u : Text} (h : (a :: v) ∈ tailsL u) :
    v ∈ tailsL u := by
  induction u with
  | nil => simp [tailsL] at h
  | cons c cs ih =>
    simp only [tailsL, List.mem_cons] at h ⊢
    rcases h with h | h
    · rcases List.cons_eq_cons.mp h with ⟨rfl, rfl⟩
      exact Or.inr (self_mem_tailsL _)
    · exact Or.inr (ih h)

theorem mem_initsL_of_append {u v q : Text} (h : q = u ++ v) : u ∈ initsL q := by
  induction u generalizing q with
  | nil =>
    cases q <;> simp [initsL]
  | cons a us ih =>
    subst h
    simp only [initsL, List.cons_append, List.mem_cons]
    exact Or.inr (List.mem_map_of_mem _ (ih rfl))

theorem endsWithL_append (u w : Text) : endsWithL u (w ++ u) = true := by
  unfold endsWithL
  rw [List.reverse_append]
  exact startsWith_append_self _ _

/-! ### Extracting the side conditions -/

theorem sideCond_q_ne_nil {q rep : Text} (h : sideCondB q rep = true) : q ≠ [] := by
  intro hq
  subst hq
  simp [sideCondB] at h

theorem sideCond_not_contains {q rep : Text} (h : sideCondB q rep = true) :
    containsSub q rep = false := by
  unfold sideCondB at h
  rw [Bool.and_eq_true, Bool.and_eq_true] at h
  simpa using h.1.1

theorem sideCond_tail {q0 : Char} {qt rep : Text} (h : sideCondB (q0 :: qt) rep = true) :
    ∀ v ∈ tailsL qt, v ≠ [] → startsWith v rep = false ∧ v.length ≤ rep.length := by
  intro v hv hne
  unfold sideCondB at h
  rw [Bool.and_eq_true, Bool.and_eq_true] at h
  have h2 := h.1.2
  simp only [List.all_eq_true] at h2
  have h3 := h2 v hv
  rw [Bool.or_eq_true] at h3
  rcases h3 with h3 | h3
  · exact absurd (by simpa using h3) hne
  · rw [Bool.and_eq_true] at h3
    exact ⟨by simpa using h3.1, by simpa using h3.2⟩

theorem sideCond_inits {q rep : Text} (h : sideCondB q rep = true) :
    ∀ u v, q = u ++ v → u ≠ [] → v ≠ [] → endsWithL u rep = false := by
  intro u v hq hu hv
  unfold sideCondB at h
  rw [Bool.and_eq_true] at h
  have h3 := h.2
  simp only [List.all_eq_true] at h3
  have h4 := h3 u (mem_initsL_of_append hq)
  rw [Bool.or_eq_true, Bool.or_eq_true] at h4
  rcases h4 with (h5 | h5) | h5
  · exact absurd (by simpa using h5) hu
  · exfalso
    have hu_eq : u = q := by simpa using h5
    have hlen := congrArg List.length hq
    rw [hu_eq] at hlen
    simp at hlen
    exact hv hlen
  · simpa using h5

/-! ### Fuel irrelevance and one-step unfoldings -/

theorem nonempty_of_not_isEmpty {pat : Text} (h : pat ≠ []) : pat.isEmpty = false := by
  cases pat with
  | nil => exact absurd rfl h
  | cons _ _ => rfl

theorem one_le_length_of_ne_nil {pat : Text} (h : pat ≠ []) : 1 ≤ pat.length := by
  cases pat with
  | nil => exact absurd rfl h
  | cons _ _ => simp

theorem replaceAllF_fuel {pat rep : Text} :
    ∀ f g s, s.length ≤ f → s.length ≤ g →
      replaceAllF pat rep f s = replaceAllF pat rep g s := by
  intro f
  induction f with
  | zero =>
    intro g s hf _
    have : s = [] := List.length_eq_zero.mp (Nat.le_zero.mp hf)
    subst this
    cases g <;> rfl
  | succ f ih =>
    intro g s hf hg
    cases s with
    | nil => cases g <;> rfl
    | cons c cs =>
      cases g with
      | zero => simp at hg
      | succ g =>
        simp only [replaceAllF]
        split
        · next hcond =>
          rw [Bool.and_eq_true] at hcond
          have hne : pat.length ≥ 1 := by
            have h1 := hcond.2
            cases pat with
            | nil => simp at h1
            | cons _ _ => simp
          simp only [List.length_cons] at hf hg
          have hlen : (List.drop pat.length (c :: cs)).length ≤ f := by
            simp only [List.length_drop, List.length_cons]
            omega
          have hlen2 : (List.drop pat.length (c :: cs)).length ≤ g := by
            simp only [List.length_drop, List.length_cons]
            omega
          rw [ih g _ hlen hlen2]
        · next =>
          simp only [List.length_cons] at hf hg
          have h1 : cs.length ≤ f := by omega
          have h2 : cs.length ≤ g := by omega
          rw [ih g cs h1 h2]

theorem replaceAll_cons (pat rep : Text) (c : Char) (cs : Text) :
    replaceAll pat rep (c :: cs) =
      if startsWith pat (c :: cs) && !pat.isEmpty then
        rep ++ replaceAll pat rep (List.drop pat.length (c :: cs))
      else c :: replaceAll pat rep cs := by
  show replaceAllF pat rep (cs.length + 1) (c :: cs) = _
  simp only [replaceAllF]
  split
  · next hcond =>
    rw [Bool.and_eq_true] at hcond
    have hne : pat.length ≥ 1 := by
      have h1 := hcond.2
      cases pat with
      | nil => simp at h1
      | cons _ _ => simp
    rw [replaceAllF_fuel cs.length (List.drop pat.length (c :: cs)).length _
      (by simp only [List.length_drop, List.length_cons]; omega) le_rfl]
    rfl
  · next => rfl

theorem afterNl_length (t : Text) : (afterNl t).length ≤ t.length := by
  induction t with
  | nil => simp [afterNl]
  | cons c cs ih =>
    simp only [afterNl]
    split
    · simp
    · simp only [List.length_cons]
      omega

theorem repackageF_fuel {pkg : Text} :
    ∀ f g s, s.length ≤ f → s.length ≤ g →
      repackageF pkg f s = repackageF pkg g s := by
  intro f
  induction f with
  | zero =>
    intro g s hf _
    have : s = [] := List.length_eq_zero.mp (Nat.le_zero.mp hf)
    subst this
    cases g <;> rfl
  | succ f ih =>
    intro g s hf hg
    cases s with
    | nil => cases g <;> rfl
    | cons c cs =>
      cases g with
      | zero => simp at hg
      | succ g =>
        simp only [repackageF]
        split
        · next hcond =>
          have hlen : (afterNl (List.drop 8 (c :: cs))).length ≤ cs.length := by
            calc (afterNl (List.drop 8 (c :: cs))).length
                ≤ (List.drop 8 (c :: cs)).length := afterNl_length _
              _ ≤ cs.length := by simp only [List.length_drop, List.length_cons]; omega
          have h1 : (afterNl (List.drop 8 (c :: cs))).length ≤ f := by
            simp only [List.length_cons] at hf; omega
          have h2 : (afterNl (List.drop 8 (c :: cs))).length ≤ g := by
            simp only [List.length_cons] at hg; omega
          rw [ih g _ h1 h2]
        · next =>
          simp only [List.length_cons] at hf hg
          have h1 : cs.length ≤ f := by omega
          have h2 : cs.length ≤ g := by omega
          rw [ih g cs h1 h2]

theorem repackage_cons (pkg : Text) (c : Char) (cs : Text) :
    repackage (c :: cs) pkg =
      if pkgMatchAt (c :: cs) then
        pkgRep pkg ++ repackage (afterNl (List.drop 8 (c :: cs))) pkg
      else c :: repackage cs pkg := by
  show repackageF pkg (cs.length + 1) (c :: cs) = _
  simp only [repackageF]
  split
  · next =>
    have hlen : (afterNl (List.drop 8 (c :: cs))).length ≤ cs.length := by
      calc (afterNl (List.drop 8 (c :: cs))).length
          ≤ (List.drop 8 (c :: cs)).length := afterNl_length _
        _ ≤ cs.length := by simp only [List.length_drop, List.length_cons]; omega
    rw [repackageF_fuel cs.length (afterNl (List.drop 8 (c :: cs))).length _ hlen le_rfl]
    rfl
  · next => rfl

/-! ### Identity when the pattern is absent -/

theorem replaceAllF_id {pat rep : Text} :
    ∀ f s, containsSub pat s = false → replaceAllF pat rep f s = s := by
  intro f
  induction f with
  | zero => intro s _; rfl
  | succ f ih =>
    intro s hs
    cases s with
    | nil => rfl
    | cons c cs =>
      rw [containsSub_cons, Bool.or_eq_false_iff] at hs
      simp only [replaceAllF, hs.1, Bool.false_and, Bool.false_eq_true, if_false]
      rw [ih cs hs.2]

theorem replaceAll_id {pat rep s : Text} (h : containsSub pat s = false) :
    replaceAll pat rep s = s := replaceAllF_id _ _ h

theorem replaceFirst_id {pat rep s : Text} (h : containsSub pat s = false) :
    replaceFirst pat rep s = s := by
  induction s with
  | nil => rfl
  | cons c cs ih =>
    rw [containsSub_cons, Bool.or_eq_false_iff] at h
    simp only [replaceFirst, h.1, Bool.false_and, Bool.false_eq_true, if_false]
    rw [ih h.2]

/-! ### Prefix preservation through the scanners -/

theorem contains_afterNl {q t : Text} (h : containsSub q (afterNl t) = true) :
    containsSub q t = true := by
  induction t with
  | nil => simpa [afterNl] using h
  | cons c cs ih =>
    simp only [afterNl] at h
    split at h
    · exact containsSub_cons_of h
    · exact containsSub_cons_of (ih h)

theorem pref_replaceAllF {pat rep qt : Text}
    (hv : ∀ v ∈ tailsL qt, v ≠ [] → startsWith v rep = false ∧ v.length ≤ rep.length) :
    ∀ f s v, s.length ≤ f → v ∈ tailsL qt →
      startsWith v (replaceAllF pat rep f s) = true → startsWith v s = true := by
  intro f
  induction f with
  | zero => intro s v _ _ h; exact h
  | succ f ih =>
    intro s v hf hm h
    cases s with
    | nil =>
      simp only [replaceAllF] at h
      exact h
    | cons c cs =>
      simp only [replaceAllF] at h
      split at h
      · next =>
        cases v with
        | nil => exact startsWith_nil _
        | cons a vs =>
          rcases hv _ hm (by simp) with ⟨hns, hlen⟩
          have hx : startsWith (a :: vs) rep = true := startsWith_of_append_le h hlen
          rw [hns] at hx
          exact absurd hx (by simp)
      · next =>
        cases v with
        | nil => exact startsWith_nil _
        | cons a vs =>
          rcases startsWith_cons_iff.mp h with ⟨h1, h2⟩
          have hvs : vs ∈ tailsL qt := mem_tailsL_tail hm
          have h3 := ih cs vs (by simp only [List.length_cons] at hf; omega) hvs h2
          exact startsWith_cons_iff.mpr ⟨h1, h3⟩

theorem pref_repackageF {pkg qt : Text}
    (hv : ∀ v ∈ tailsL qt, v ≠ [] →
      startsWith v (pkgRep pkg) = false ∧ v.length ≤ (pkgRep pkg).length) :
    ∀ f s v, s.length ≤ f → v ∈ tailsL qt →
      startsWith v (repackageF pkg f s) = true → startsWith v s = true := by
  intro f
  induction f with
  | zero => intro s v _ _ h; exact h
  | succ f ih =>
    intro s v hf hm h
    cases s with
    | nil =>
      simp only [repackageF] at h
      exact h
    | cons c cs =>
      simp only [repackageF] at h
      split at h
      · next =>
        cases v with
        | nil => exact startsWith_nil _
        | cons a vs =>
          rcases hv _ hm (by simp) with ⟨hns, hlen⟩
          have hx : startsWith (a :: vs) (pkgRep pkg) = true := startsWith_of_append_le h hlen
          rw [hns] at hx
          exact absurd hx (by simp)
      · next =>
        cases v with
        | nil => exact startsWith_nil _
        | cons a vs =>
          rcases startsWith_cons_iff.mp h with ⟨h1, h2⟩
          have hvs : vs ∈ tailsL qt := mem_tailsL_tail hm
          have h3 := ih cs vs (by simp only [List.length_cons] at hf; omega) hvs h2
          exact startsWith_cons_iff.mpr ⟨h1, h3⟩

/-! ### The global replacement leaves no occurrence of its own pattern -/

theorem replaceAllF_self_free {pat rep : Text} (hsc : sideCondB pat rep = true) :
    ∀ f s, s.length ≤ f → containsSub pat (replaceAllF pat rep f s) = false := by
  have hne : pat ≠ [] := sideCond_q_ne_nil hsc
  obtain ⟨p0, pt, hp⟩ : ∃ p0 pt, pat = p0 :: pt := by
    cases pat with
    | nil => exact absurd rfl hne
    | cons a b => exact ⟨a, b, rfl⟩
  intro f
  induction f with
  | zero =>
    intro s hf
    have hs : s = [] := List.length_eq_zero.mp (Nat.le_zero.mp hf)
    subst hs
    rw [hp]
    rfl
  | succ f ih =>
    intro s hf
    cases s with
    | nil =>
      rw [hp]
      rfl
    | cons c cs =>
      simp only [replaceAllF]
      split
      · next hcond =>
        rw [Bool.and_eq_true] at hcond
        have hplen : 1 ≤ pat.length := one_le_length_of_ne_nil hne
        cases hc : containsSub pat
            (rep ++ replaceAllF pat rep f (List.drop pat.length (c :: cs))) with
        | false => rfl
        | true =>
          exfalso
          rcases containsSub_append_split hc with h1 | h1 | ⟨u, v, w, h1, h2, h3, h4, h5⟩
          · rw [sideCond_not_contains hsc] at h1
            exact absurd h1 (by simp)
          · have hIH := ih (List.drop pat.length (c :: cs))
              (by simp only [List.length_drop, List.length_cons] at hf ⊢; omega)
            rw [hIH] at h1
            exact absurd h1 (by simp)
          · have hfalse := sideCond_inits hsc u v h1 h2 h3
            have htrue : endsWithL u rep = true := by
              rw [h4]
              exact endsWithL_append u w
            rw [hfalse] at htrue
            exact absurd htrue (by simp)
      · next hcond =>
        have hswfalse : startsWith pat (c :: cs) = false := by
          by_contra hx
          rw [Bool.not_eq_false] at hx
          apply hcond
          rw [hx, nonempty_of_not_isEmpty hne]
          rfl
        rw [containsSub_cons, Bool.or_eq_false_iff]
        constructor
        · cases hsw : startsWith pat (c :: replaceAllF pat rep f cs) with
          | false => rfl
          | true =>
            exfalso
            rw [hp] at hsw
            rcases startsWith_cons_iff.mp hsw with ⟨h1, h2⟩
            have h3 := pref_replaceAllF (sideCond_tail (hp ▸ hsc)) f cs pt
              (by simp only [List.length_cons] at hf; omega) (self_mem_tailsL pt) h2
            have hx : startsWith pat (c :: cs) = true := by
              rw [hp]
              exact startsWith_cons_iff.mpr ⟨h1, h3⟩
            rw [hswfalse] at hx
            exact absurd hx (by simp)
        · exact ih cs (by simp only [List.length_cons] at hf; omega)

theorem replaceAll_self_free {pat rep : Text} (hsc : sideCondB pat rep = true)
    (s : Text) : containsSub pat (replaceAll pat rep s) = false :=
  replaceAllF_self_free hsc s.length s le_rfl

/-! ### The scanners cannot re-introduce a token satisfying the side conditions -/

theorem replaceAllF_keep_free {q pat rep : Text} (hsc : sideCondB q rep = true) :
    ∀ f s, s.length ≤ f → containsSub q s = false →
      containsSub q (replaceAllF pat rep f s) = false := by
  have hne : q ≠ [] := sideCond_q_ne_nil hsc
  obtain ⟨q0, qt, hq⟩ : ∃ q0 qt, q = q0 :: qt := by
    cases q with
    | nil => exact absurd rfl hne
    | cons a b => exact ⟨a, b, rfl⟩
  intro f
  induction f with
  | zero =>
    intro s _ hfree
    exact hfree
  | succ f ih =>
    intro s hf hfree
    cases s with
    | nil => exact hfree
    | cons c cs =>
      rw [containsSub_cons, Bool.or_eq_false_iff] at hfree
      simp only [replaceAllF]
      split
      · next hcond =>
        rw [Bool.and_eq_true] at hcond
        have hplen : 1 ≤ pat.length := by
          have h1 := hcond.2
          cases pat with
          | nil => simp at h1
          | cons _ _ => simp
        cases hc : containsSub q
            (rep ++ replaceAllF pat rep f (List.drop pat.length (c :: cs))) with
        | false => rfl
        | true =>
          exfalso
          rcases containsSub_append_split hc with h1 | h1 | ⟨u, v, w, h1, h2, h3, h4, h5⟩
          · rw [sideCond_not_contains hsc] at h1
            exact absurd h1 (by simp)
          · have hdropfree : containsSub q (List.drop pat.length (c :: cs)) = false := by
              cases hd : containsSub q (List.drop pat.length (c :: cs)) with
              | false => rfl
              | true =>
                have hx := containsSub_of_drop hd
                rw [containsSub_cons, hfree.1, hfree.2] at hx
                simp at hx
            have hIH := ih (List.drop pat.length (c :: cs))
              (by simp only [List.length_drop, List.length_cons] at hf ⊢; omega) hdropfree
            rw [hIH] at h1
            exact absurd h1 (by simp)
          · have hfalse := sideCond_inits hsc u v h1 h2 h3
            have htrue : endsWithL u rep = true := by
              rw [h4]
              exact endsWithL_append u w
            rw [hfalse] at htrue
            exact absurd htrue (by simp)
      · next =>
        rw [containsSub_cons, Bool.or_eq_false_iff]
        constructor
        · cases hsw : startsWith q (c :: replaceAllF pat rep f cs) with
          | false => rfl
          | true =>
            exfalso
            rw [hq] at hsw
            rcases startsWith_cons_iff.mp hsw with ⟨h1, h2⟩
            have h3 := pref_replaceAllF (sideCond_tail (hq ▸ hsc)) f cs qt
              (by simp only [List.length_cons] at hf; omega) (self_mem_tailsL qt) h2
            have hx : startsWith q (c :: cs) = true := by
              rw [hq]
              exact startsWith_cons_iff.mpr ⟨h1, h3⟩
            rw [hfree.1] at hx
            exact absurd hx (by simp)
        · exact ih cs (by simp only [List.length_cons] at hf; omega) hfree.2

theorem replaceAll_keep_free {q pat rep : Text} (hsc : sideCondB q rep = true)
    (s : Text) (h : containsSub q s = false) :
    containsSub q (replaceAll pat rep s) = false :=
  replaceAllF_keep_free hsc s.length s le_rfl h

theorem repackageF_keep_free {q pkg : Text} (hsc : sideCondB q (pkgRep pkg) = true) :
    ∀ f s, s.length ≤ f → containsSub q s = false →
      containsSub q (repackageF pkg f s) = false := by
  have hne : q ≠ [] := sideCond_q_ne_nil hsc
  obtain ⟨q0, qt, hq⟩ : ∃ q0 qt, q = q0 :: qt := by
    cases q with
    | nil => exact absurd rfl hne
    | cons a b => exact ⟨a, b, rfl⟩
  intro f
  induction f with
  | zero =>
    intro s _ hfree
    exact hfree
  | succ f ih =>
    intro s hf hfree
    cases s with
    | nil => exact hfree
    | cons c cs =>
      rw [containsSub_cons, Bool.or_eq_false_iff] at hfree
      simp only [repackageF]
      split
      · next =>
        cases hc : containsSub q
            (pkgRep pkg ++ repackageF pkg f (afterNl (List.drop 8 (c :: cs)))) with
        | false => rfl
        | true =>
          exfalso
          rcases containsSub_append_split hc with h1 | h1 | ⟨u, v, w, h1, h2, h3, h4, h5⟩
          · rw [sideCond_not_contains hsc] at h1
            exact absurd h1 (by simp)
          · have hdropfree : containsSub q (afterNl (List.drop 8 (c :: cs))) = false := by
              cases hd : containsSub q (afterNl (List.drop 8 (c :: cs))) with
              | false => rfl
              | true =>
                have hx := containsSub_of_drop (contains_afterNl hd)
                rw [containsSub_cons, hfree.1, hfree.2] at hx
                simp at hx
            have hlen : (afterNl (List.drop 8 (c :: cs))).length ≤ f := by
              have ha := afterNl_length (List.drop 8 (c :: cs))
              simp only [List.length_drop, List.length_cons] at ha
              simp only [List.length_cons] at hf
              omega
            have hIH := ih (afterNl (List.drop 8 (c :: cs))) hlen hdropfree
            rw [hIH] at h1
            exact absurd h1 (by simp)
          · have hfalse := sideCond_inits hsc u v h1 h2 h3
            have htrue : endsWithL u (pkgRep pkg) = true := by
              rw [h4]
              exact endsWithL_append u w
            rw [hfalse] at htrue
            exact absurd htrue (by simp)
      · next =>
        rw [containsSub_cons, Bool.or_eq_false_iff]
        constructor
        · cases hsw : startsWith q (c :: repackageF pkg f cs) with
          | false => rfl
          | true =>
            exfalso
            rw [hq] at hsw
            rcases startsWith_cons_iff.mp hsw with ⟨h1, h2⟩
            have h3 := pref_repackageF (sideCond_tail (hq ▸ hsc)) f cs qt
              (by simp only [List.length_cons] at hf; omega) (self_mem_tailsL qt) h2
            have hx : startsWith q (c :: cs) = true := by
              rw [hq]
              exact startsWith_cons_iff.mpr ⟨h1, h3⟩
            rw [hfree.1] at hx
            exact absurd hx (by simp)
        · exact ih cs (by simp only [List.length_cons] at hf; omega) hfree.2

theorem repackage_keep_free {q pkg : Text} (hsc : sideCondB q (pkgRep pkg) = true)
    (s : Text) (h : containsSub q s = false) :
    containsSub q (repackage s pkg) = false :=
  repackageF_keep_free hsc s.length s le_rfl h

/-! ### Decomposition of the first-occurrence replacement -/

theorem replaceFirst_cons (pat rep : Text) (c : Char) (cs : Text) :
    replaceFirst pat rep (c :: cs) =
      if startsWith pat (c :: cs) && !pat.isEmpty then
        rep ++ List.drop pat.length (c :: cs)
      else c :: replaceFirst pat rep cs := rfl

theorem replaceFirst_decomp {pat rep A B : Text} (hp : pat ≠ [])
    (hA : ∀ i, i < A.length →
      startsWith pat (List.drop i (A ++ (pat ++ B))) = false) :
    replaceFirst pat rep (A ++ (pat ++ B)) = A ++ (rep ++ B) := by
  induction A with
  | nil =>
    obtain ⟨p0, pt, hpp⟩ : ∃ p0 pt, pat = p0 :: pt := by
      cases pat with
      | nil => exact absurd rfl hp
      | cons a b => exact ⟨a, b, rfl⟩
    simp only [List.nil_append]
    have hsw : startsWith pat (pat ++ B) = true := startsWith_append_self _ _
    conv_lhs => rw [hpp, List.cons_append]
    rw [replaceFirst_cons]
    rw [← List.cons_append, ← hpp, hsw, nonempty_of_not_isEmpty hp]
    simp only [Bool.and_self, if_true, Bool.not_false]
    rw [List.drop_left]
  | cons a At ih =>
    have h0 := hA 0 (by simp)
    rw [List.drop_zero, List.cons_append] at h0
    rw [List.cons_append, replaceFirst_cons, h0]
    simp only [Bool.false_and, Bool.false_eq_true, if_false]
    rw [ih]
    · rw [List.cons_append]
    · intro i hi
      have h1 := hA (i + 1) (by simp only [List.length_cons]; omega)
      rw [List.cons_append, List.drop_succ_cons] at h1
      exact h1

/-! ### The global replacement splits at match-free cut points -/

theorem replaceAll_append_aux {pat rep : Text} (hp : pat ≠ []) :
    ∀ n X Y, X.length ≤ n →
      (∀ i, i < X.length → startsWith pat (List.drop i (X ++ Y)) = true →
        i + pat.length ≤ X.length) →
      replaceAll pat rep (X ++ Y) = replaceAll pat rep X ++ replaceAll pat rep Y := by
  have hplen : 1 ≤ pat.length := one_le_length_of_ne_nil hp
  have hie : pat.isEmpty = false := nonempty_of_not_isEmpty hp
  intro n
  induction n with
  | zero =>
    intro X Y hn _
    have hX0 : X = [] := List.length_eq_zero.mp (Nat.le_zero.mp hn)
    subst hX0
    rfl
  | succ n ih =>
    intro X Y hn hX
    cases X with
    | nil => rfl
    | cons a Xt =>
      by_cases hsw : startsWith pat ((a :: Xt) ++ Y) = true
      · have hle : pat.length ≤ (a :: Xt).length := by
          have := hX 0 (by simp) (by rw [List.drop_zero]; exact hsw)
          omega
        have hswX : startsWith pat (a :: Xt) = true := startsWith_of_append_le hsw hle
        have hdec : (a :: Xt) = pat ++ (a :: Xt).drop pat.length := startsWith_decomp hswX
        have hlenX : (a :: Xt).length = pat.length + ((a :: Xt).drop pat.length).length := by
          have := congrArg List.length hdec
          simpa using this
        have hkey : ∀ i, List.drop (pat.length + i) ((a :: Xt) ++ Y) =
            List.drop i ((a :: Xt).drop pat.length ++ Y) := by
          intro i
          conv_lhs => rw [hdec, List.append_assoc]
          rw [← List.drop_drop, List.drop_left]
        have hXd : ∀ i, i < ((a :: Xt).drop pat.length).length →
            startsWith pat (List.drop i ((a :: Xt).drop pat.length ++ Y)) = true →
            i + pat.length ≤ ((a :: Xt).drop pat.length).length := by
          intro i hi hswi
          have h2 := hX (pat.length + i) (by omega) (by rw [hkey]; exact hswi)
          omega
        have hlen2 : ((a :: Xt).drop pat.length).length ≤ n := by
          simp only [List.length_drop, List.length_cons]
          simp only [List.length_cons] at hn
          omega
        have hrec : replaceAll pat rep ((a :: Xt).drop pat.length ++ Y) =
            replaceAll pat rep ((a :: Xt).drop pat.length) ++ replaceAll pat rep Y :=
          ih ((a :: Xt).drop pat.length) Y hlen2 hXd
        have hLHS : replaceAll pat rep ((a :: Xt) ++ Y) =
            rep ++ replaceAll pat rep ((a :: Xt).drop pat.length ++ Y) := by
          rw [List.cons_append, replaceAll_cons, ← List.cons_append, hsw, hie]
          simp only [Bool.and_self, if_true, Bool.not_false]
          rw [List.drop_append_of_le_length hle]
        have hRHS : replaceAll pat rep (a :: Xt) =
            rep ++ replaceAll pat rep ((a :: Xt).drop pat.length) := by
          rw [replaceAll_cons, hswX, hie]
          simp only [Bool.and_self, if_true, Bool.not_false]
        rw [hLHS, hrec, hRHS, List.append_assoc]
      · have hsw2 : startsWith pat ((a :: Xt) ++ Y) = false := by
          cases hx : startsWith pat ((a :: Xt) ++ Y) with
          | false => rfl
          | true => exact absurd hx hsw
        have hswX : startsWith pat (a :: Xt) = false := by
          cases hx : startsWith pat (a :: Xt) with
          | false => rfl
          | true => exact absurd (startsWith_extend Y hx) hsw
        have hXt : ∀ i, i < Xt.length → startsWith pat (List.drop i (Xt ++ Y)) = true →
            i + pat.length ≤ Xt.length := by
          intro i hi hswi
          have h2 := hX (i + 1) (by simp only [List.length_cons]; omega)
            (by rw [List.cons_append, List.drop_succ_cons]; exact hswi)
          simp only [List.length_cons] at h2
          omega
        have hrec : replaceAll pat rep (Xt ++ Y) =
            replaceAll pat rep Xt ++ replaceAll pat rep Y :=
          ih Xt Y (by simp only [List.length_cons] at hn; omega) hXt
        rw [List.cons_append, replaceAll_cons]
        rw [← List.cons_append, hsw2]
        simp only [Bool.false_and, Bool.false_eq_true, if_false]
        rw [hrec, replaceAll_cons, hswX]
        simp only [Bool.false_and, Bool.false_eq_true, if_false, List.cons_append]

theorem replaceAll_append {pat rep : Text} (hp : pat ≠ []) (X Y : Text)
    (hX : ∀ i, i < X.length → startsWith pat (List.drop i (X ++ Y)) = true →
      i + pat.length ≤ X.length) :
    replaceAll pat rep (X ++ Y) = replaceAll pat rep X ++ replaceAll pat rep Y :=
  replaceAll_append_aux hp X.length X Y le_rfl hX

/-! ### Facts used for the package rewrite -/

theorem hasNl_append_nl (l B : Text) : hasNl (l ++ '\n' :: B) = true := by
  induction l with
  | nil => simp [hasNl]
  | cons c cs ih => simp [hasNl, ih]

theorem afterNl_append_nl {l : Text} (B : Text) (hl : '\n' ∉ l) :
    afterNl (l ++ '\n' :: B) = B := by
  induction l with
  | nil => simp [afterNl]
  | cons c cs ih =>
    simp only [List.mem_cons, not_or] at hl
    simp only [List.cons_append, afterNl]
    have h1 : (c == '\n') = false := by
      cases hx : c == '\n' with
      | false => rfl
      | true =>
        exact absurd (beq_iff_eq.mp hx).symm hl.1
    rw [h1]
    simp only [Bool.false_eq_true, if_false]
    exact ih hl.2

theorem repackage_decomp {A l B pkg : Text}
    (hA : ∀ i, i < A.length →
      startsWith pkgKw (List.drop i (A ++ (pkgKw ++ (l ++ '\n' :: B)))) = false)
    (hl : '\n' ∉ l) :
    repackage (A ++ (pkgKw ++ (l ++ '\n' :: B))) pkg =
      A ++ (pkgKw ++ (pkg ++ '\n' :: repackage B pkg)) := by
  induction A with
  | nil =>
    simp only [List.nil_append]
    have hkw : pkgKw = 'p' :: strLit "ackage " := rfl
    have h8 : List.drop 8 (pkgKw ++ (l ++ '\n' :: B)) = l ++ '\n' :: B := by
      have he : (8 : Nat) = pkgKw.length := rfl
      rw [he, List.drop_left]
    have hcond : pkgMatchAt ('p' :: (strLit "ackage " ++ (l ++ '\n' :: B))) = true := by
      rw [← List.cons_append, ← hkw]
      unfold pkgMatchAt
      rw [h8, hasNl_append_nl, startsWith_append_self]
      rfl
    conv_lhs => rw [hkw, List.cons_append]
    rw [repackage_cons, hcond]
    simp only [if_true]
    rw [← List.cons_append, ← hkw, h8, afterNl_append_nl B hl]
    have hrep : pkgRep pkg = (pkgKw ++ pkg) ++ ['\n'] := rfl
    rw [hrep]
    simp [List.append_assoc]
  | cons a At ih =>
    have h0 := hA 0 (by simp)
    rw [List.drop_zero, List.cons_append] at h0
    have hcond : pkgMatchAt (a :: (At ++ (pkgKw ++ (l ++ '\n' :: B)))) = false := by
      unfold pkgMatchAt
      rw [h0]
      rfl
    rw [List.cons_append, repackage_cons, hcond]
    simp only [Bool.false_eq_true, if_false]
    rw [ih]
    · rw [List.cons_append]
    · intro i hi
      have h1 := hA (i + 1) (by simp only [List.length_cons]; omega)
      rw [List.cons_append, List.drop_succ_cons] at h1
      exact h1

theorem repackage_of_matchFree {s : Text} (pkg : Text) (h : pkgMatchFree s = true) :
    repackage s pkg = s := by
  induction s with
  | nil => rfl
  | cons c cs ih =>
    unfold pkgMatchFree at h
    rw [Bool.and_eq_true] at h
    rw [repackage_cons]
    have hfalse : pkgMatchAt (c :: cs) = false := by
      cases hx : pkgMatchAt (c :: cs) with
      | false => rfl
      | true =>
        have h1 := h.1
        rw [hx] at h1
        exact absurd h1 (by simp)
    simp only [hfalse, Bool.false_eq_true, if_false]
    rw [ih h.2]

/-! ### Line structure of the emitted file -/

theorem linesL_append_nl {x : Text} (r : Text) (hx : '\n' ∉ x) :
    linesL (x ++ '\n' :: r) = x :: linesL r := by
  induction x with
  | nil => simp [linesL]
  | cons c cs ih =>
    simp only [List.mem_cons, not_or] at hx
    have h1 : (c == '\n') = false := by
      cases hb : c == '\n' with
      | false => rfl
      | true => exact absurd (beq_iff_eq.mp hb).symm hx.1
    rw [List.cons_append]
    show (if c == '\n' then [] :: linesL (cs ++ '\n' :: r)
          else match linesL (cs ++ '\n' :: r) with
               | [] => [[c]]
               | l :: ls => (c :: l) :: ls) = (c :: cs) :: linesL r
    rw [h1, ih hx.2]
    simp

/-! ### Claim theorems -/

/-- C1 counterexample: the claim fails for the target type name `T`.
The derived alias is `gen` ++ Title("T") = `genT` itself, so the global
replacement leaves the token in place and the instantiated output of
the template `package stack // type genT interface..` still contains
`genT`. -/
theorem c1_counterexample :
    containsSub genTtok
      (instantiate (strLit "package stack\n\ntype genT interface\x7b\x7d\n")
        (strLit "T") (strLit "T") (strLit "stack")) = true := by
  decide

/-- C1 (amended): for every template, after declareType, referenceType
and repackage no occurrence of `genT` remains, provided the three
replacement strings the pipeline inserts (the derived alias
`gen` ++ Title(kind), the type name, and `package <pkg>\n`) neither
contain `genT` nor overlap it at a boundary, as captured by the
decidable side conditions `sideCondB`. -/
theorem c1_amended (input kind typename pkg : Text)
    (h1 : sideCondB genTtok (aliasName kind) = true)
    (h2 : sideCondB genTtok typename = true)
    (h3 : sideCondB genTtok (pkgRep pkg) = true) :
    containsSub genTtok (instantiate input kind typename pkg) = false := by
  unfold instantiate referenceType
  apply repackage_keep_free h3
  apply replaceAll_keep_free h2
  unfold declareType
  exact replaceAll_self_free h1 _

/-- C1 amended claim at a concrete input: target type `Int`, type name
`Int`, package `stack`, on the template of the specification scenario. -/
theorem c1_amended_witness :
    containsSub genTtok
      (instantiate
        (strLit "package stack\n\ntype genT interface\x7b\x7d\n\ntype AnyT struct \x7b elements []genT \x7d\n")
        (strLit "Int") (strLit "Int") (strLit "stack")) = false :=
  c1_amended _ _ _ _ (by decide) (by decide) (by decide)

/-- C2 counterexample: in library mode with target type name `int8`
the program replaces `AnyT` with the capitalized `Int8`, not with the
caller-supplied casing `int8`: `var x AnyT` becomes `var x Int8` and
the output nowhere contains `var x int8`. -/
theorem c2_counterexample :
    mainRewrite (strLit "package stack\n\ntype genT interface\x7b\x7d\n\nvar x AnyT\n")
        (strLit "int8") (strLit "stack") true (strLit "stack") =
      strLit "package stack\n\ntype genInt8 int8\n\nvar x Int8\n" ∧
    containsSub (strLit "var x int8")
      (mainRewrite (strLit "package stack\n\ntype genT interface\x7b\x7d\n\nvar x AnyT\n")
        (strLit "int8") (strLit "stack") true (strLit "stack")) = false := by
  refine ⟨by decide, by decide⟩

/-- C2 (amended): in library mode with target type name `int8` the
replacement applied to `AnyT` is the capitalized `Int8` (Title of the
kind), the generated alias name is `genInt8`, and no occurrence of
`AnyT` survives in the full rewrite, for every template. -/
theorem c2_amended (input generic : Text) :
    deriveTypename generic (strLit "int8") true = strLit "Int8" ∧
    aliasName (strLit "int8") = strLit "genInt8" ∧
    containsSub (strLit "AnyT")
      (mainRewrite input (strLit "int8") generic true (strLit "stack")) = false := by
  refine ⟨rfl, by decide, ?_⟩
  unfold mainRewrite instantiate
  apply repackage_keep_free (by decide)
  have hd : deriveTypename generic (strLit "int8") true = goTitle (strLit "int8") := rfl
  rw [hd]
  unfold referenceType
  exact replaceAll_self_free (by decide) _

/-- C3 counterexample: `repackage` is not line-anchored.  On the input
`// package foo` newline `package bar` newline, the comment line is
rewritten as well: the first line of the output differs from the first
line of the input. -/
theorem c3_counterexample :
    repackage (strLit "// package foo\npackage bar\n") (strLit "baz") =
      strLit "// package baz\npackage baz\n" ∧
    (linesL (repackage (strLit "// package foo\npackage bar\n") (strLit "baz"))).head? ≠
      (linesL (strLit "// package foo\npackage bar\n")).head? := by
  refine ⟨by decide, by decide⟩

/-- C3 (amended): `repackage` replaces every substring consisting of
the literal `package ` followed by the rest of its line and the first
following newline — wherever it occurs, comment lines included — by
`package <pkg>` newline: the text before the leftmost such match is
copied unchanged, the match is replaced, and scanning continues after
the consumed newline. -/
theorem c3_amended (A l B pkg : Text)
    (hA : ∀ i, i < A.length →
      startsWith pkgKw (List.drop i (A ++ (pkgKw ++ (l ++ '\n' :: B)))) = false)
    (hl : '\n' ∉ l) :
    repackage (A ++ (pkgKw ++ (l ++ '\n' :: B))) pkg =
      A ++ (pkgKw ++ (pkg ++ '\n' :: repackage B pkg)) :=
  repackage_decomp hA hl

/-- C3 amended claim at a concrete input: a comment line before the
match is kept, the package line `package stack` becomes `package foo`,
and the rest is processed recursively. -/
theorem c3_amended_witness :
    repackage (strLit "// hello\n" ++ (pkgKw ++ (strLit "stack" ++ '\n' :: strLit "var x int\n")))
        (strLit "foo") =
      strLit "// hello\n" ++
        (pkgKw ++ (strLit "foo" ++ '\n' :: repackage (strLit "var x int\n") (strLit "foo"))) :=
  c3_amended _ _ _ _ (by decide) (by decide)

/-- C4 counterexample: a template without the alias declaration
pattern does NOT keep its `genT` tokens un-rewritten: step 2 of
declareType still replaces every `genT` by the alias name, so the
output contains `genInt` and no `genT` at all. -/
theorem c4_counterexample :
    containsSub declPat
      (strLit "package stack\nfunc f(x genT) genT \x7b return x \x7d\n") = false ∧
    containsSub genTtok
      (instantiate (strLit "package stack\nfunc f(x genT) genT \x7b return x \x7d\n")
        (strLit "Int") (strLit "Int") (strLit "stack")) = false ∧
    containsSub (strLit "genInt")
      (instantiate (strLit "package stack\nfunc f(x genT) genT \x7b return x \x7d\n")
        (strLit "Int") (strLit "Int") (strLit "stack")) = true := by
  refine ⟨by decide, by decide, by decide⟩

/-- C4 (amended): when the template does not contain the alias
declaration pattern, the first rewrite step is the identity, and
declareType degenerates to the bare global `genT` replacement — the
tokens are still rewritten, no alias declaration is introduced, and no
error is raised (the function is total). -/
theorem c4_amended (input kind : Text) (h : containsSub declPat input = false) :
    declareType input kind = replaceAll genTtok (aliasName kind) input := by
  unfold declareType
  rw [replaceFirst_id h]

/-- C4 amended claim at a concrete input. -/
theorem c4_amended_witness :
    declareType (strLit "package stack\nfunc f(x genT) genT \x7b return x \x7d\n")
        (strLit "Int") =
      replaceAll genTtok (aliasName (strLit "Int"))
        (strLit "package stack\nfunc f(x genT) genT \x7b return x \x7d\n") :=
  c4_amended _ _ (by decide)

/-- C5 counterexample: in library mode the destination filename is the
kind verbatim plus `.go`; with target type `Int` the file is `Int.go`,
not the `int.go` the claim states. -/
theorem c5_counterexample :
    deriveFilename (strLit "stack") (strLit "Int") true = strLit "Int.go" ∧
    deriveFilename (strLit "stack") (strLit "Int") true ≠ strLit "int.go" := by
  refine ⟨by decide, by decide⟩

/-- C5 (amended): for the template path ending in `stack.go` the
generic name is `stack`; library mode with target `Int` derives
filename `Int.go` (kind verbatim, no lowercasing) and concrete type
`Int`; application mode with target `Stack` derives filename
`stack.go` (from the generic name) and concrete type `Stack` (Title of
the generic name, which ignores the kind). -/
theorem c5_amended :
    deriveGeneric (strLit "/go/src/github.com/fogfish/golem/stack/stack.go") =
      strLit "stack" ∧
    deriveFilename (strLit "stack") (strLit "Int") true = strLit "Int.go" ∧
    deriveTypename (strLit "stack") (strLit "Int") true = strLit "Int" ∧
    deriveFilename (strLit "stack") (strLit "Stack") false = strLit "stack.go" ∧
    deriveTypename (strLit "stack") (strLit "Stack") false = strLit "Stack" := by
  refine ⟨by decide, by decide, by decide, by decide, by decide⟩

/-- C6: the code ignores the value returned by WriteFile (main.go line
193 discards the error), so the process still logs success and exits 0
when the write fails; failures of the package lookup and of the
template read do exit 1.  This contradicts the claim that a failing
write yields a non-zero exit. -/
theorem c6_write_error_ignored :
    exitCodeOf (runMain
      ⟨Except.error (strLit "no buildable Go source files"),
       Except.ok (strLit "package stack\n"), Except.ok ()⟩
      (strLit "Int") (strLit "github.com/fogfish/golem/stack/stack.go")
      (strLit "/go") (strLit "t0") true) = 1 ∧
    exitCodeOf (runMain
      ⟨Except.ok ⟨strLit "stack", strLit "/go/pkg"⟩,
       Except.error (strLit "no such file"), Except.ok ()⟩
      (strLit "Int") (strLit "github.com/fogfish/golem/stack/stack.go")
      (strLit "/go") (strLit "t0") true) = 1 ∧
    exitCodeOf (runMain
      ⟨Except.ok ⟨strLit "stack", strLit "/go/pkg"⟩,
       Except.ok (strLit "package stack\n"),
       Except.error (strLit "open Int.go: permission denied")⟩
      (strLit "Int") (strLit "github.com/fogfish/golem/stack/stack.go")
      (strLit "/go") (strLit "t0") true) = 0 :=
  ⟨rfl, rfl, rfl⟩

/-- C7: the rewrite pipeline is a pure function of its inputs, so two
emissions with the same template, kind, mode, package and source path
produce byte-identical files except for the timestamp line: both
outputs share the same text A before the time line and the same text B
after it. -/
theorem c7_deterministic_modulo_time (input kind generic : Text) (lib : Bool)
    (pkgName gpath t1 t2 : Text) :
    ∃ A B,
      emitBytes gpath t1 (mainRewrite input kind generic lib pkgName) =
        A ++ ((strLit "// Time: " ++ (t1 ++ strLit "\n")) ++ B) ∧
      emitBytes gpath t2 (mainRewrite input kind generic lib pkgName) =
        A ++ ((strLit "// Time: " ++ (t2 ++ strLit "\n")) ++ B) := by
  refine ⟨strLit "// Code generated by `golem` package\n" ++
      (strLit "// Source: " ++ (gpath ++ strLit "\n")),
    strLit "\n" ++ mainRewrite input kind generic lib pkgName, ?_, ?_⟩ <;>
  · unfold emitBytes
    simp [List.append_assoc, show strLit "\n\n" = strLit "\n" ++ strLit "\n" from rfl]

/-- C8: the emitted file starts with exactly the three header comment
lines in order — the fixed generated-by marker, the source path
comment, and the timestamp comment — followed (after the blank
separator line the header also emits) by the lines of the rewritten
body. -/
theorem c8_header_lines (gpath t body : Text)
    (hg : '\n' ∉ gpath) (ht : '\n' ∉ t) :
    linesL (emitBytes gpath t body) =
      strLit "// Code generated by `golem` package" ::
        (strLit "// Source: " ++ gpath) ::
        (strLit "// Time: " ++ t) :: [] :: linesL body := by
  have e0 : emitBytes gpath t body =
      strLit "// Code generated by `golem` package" ++ '\n' ::
        ((strLit "// Source: " ++ gpath) ++ '\n' ::
          ((strLit "// Time: " ++ t) ++ '\n' :: '\n' :: body)) := by
    unfold emitBytes
    rw [show strLit "// Code generated by `golem` package\n" =
      strLit "// Code generated by `golem` package" ++ ['\n'] from rfl]
    rw [show strLit "\n\n" = ['\n'] ++ ['\n'] from rfl,
      show strLit "\n" = ['\n'] from rfl]
    simp [List.append_assoc]
  rw [e0]
  rw [linesL_append_nl _ (by decide)]
  rw [linesL_append_nl _ ?hg2]
  case hg2 =>
    intro hmem
    rcases List.mem_append.mp hmem with hmem | hmem
    · exact absurd hmem (by decide)
    · exact hg hmem
  rw [linesL_append_nl _ ?ht2]
  case ht2 =>
    intro hmem
    rcases List.mem_append.mp hmem with hmem | hmem
    · exact absurd hmem (by decide)
    · exact ht hmem
  simp [linesL]

/-- C8 claim at a concrete input. -/
theorem c8_header_lines_witness :
    linesL (emitBytes (strLit "stack/stack.go")
        (strLit "2019-05-01 10:00:00 +0000 UTC") (strLit "package stack\n")) =
      strLit "// Code generated by `golem` package" ::
        (strLit "// Source: " ++ strLit "stack/stack.go") ::
        (strLit "// Time: " ++ strLit "2019-05-01 10:00:00 +0000 UTC") :: [] ::
        linesL (strLit "package stack\n") :=
  c8_header_lines _ _ _ (by decide) (by decide)

/-- C9 counterexample: with target type name `Tx` the new declaration
written by step 1 is `type genTx Tx`, which still contains `genT`, and
the global step 2 rewrites the declaration site a second time, mangling
it to `type genTxx Tx` — the declaration site is not consumed in a way
that protects it from the generic-token replacement. -/
theorem c9_counterexample :
    declareType (strLit "type genT interface\x7b\x7d") (strLit "Tx") =
      strLit "type genTxx Tx" ∧
    strLit "type genTxx Tx" ≠ strLit "type genTx Tx" := by
  refine ⟨by decide, by decide⟩

/-- C9 (amended): when the declaration pattern occurs first at the
position after A (no match starts inside A), step 1 replaces exactly
that occurrence by `type gen<Title kind> <kind>`; provided the new
declaration contains no `genT` and no `genT` match straddles the cut
points, the global step 2 then rewrites only A and B and leaves the new
declaration intact. -/
theorem c9_amended (A B kind : Text)
    (hA : ∀ i, i < A.length →
      startsWith declPat (List.drop i (A ++ (declPat ++ B))) = false)
    (hnd : containsSub genTtok (newDecl kind) = false)
    (h1 : ∀ i, i < A.length →
      startsWith genTtok (List.drop i (A ++ (newDecl kind ++ B))) = true →
      i + genTtok.length ≤ A.length)
    (h2 : ∀ i, i < (newDecl kind).length →
      startsWith genTtok (List.drop i (newDecl kind ++ B)) = true →
      i + genTtok.length ≤ (newDecl kind).length) :
    declareType (A ++ (declPat ++ B)) kind =
      replaceAll genTtok (aliasName kind) A ++
        (newDecl kind ++ replaceAll genTtok (aliasName kind) B) := by
  unfold declareType
  rw [replaceFirst_decomp (by decide) hA]
  rw [replaceAll_append (by decide) A (newDecl kind ++ B) h1]
  rw [replaceAll_append (by decide) (newDecl kind) B h2]
  rw [replaceAll_id hnd]

/-- C9 amended claim at a concrete input: kind `Int`, the declaration
is replaced once by `type genInt Int` and survives step 2 unchanged
while the `genT` tokens in the rest of the template are rewritten. -/
theorem c9_amended_witness :
    declareType
        (strLit "package stack\n\n" ++ (declPat ++ strLit "\n\nfunc f(x genT) genT\n"))
        (strLit "Int") =
      replaceAll genTtok (aliasName (strLit "Int")) (strLit "package stack\n\n") ++
        (newDecl (strLit "Int") ++
          replaceAll genTtok (aliasName (strLit "Int"))
            (strLit "\n\nfunc f(x genT) genT\n")) :=
  c9_amended _ _ _ (by decide) (by decide) (by decide) (by decide)

/-- C10: when the text contains no match of the `package (.*)\n`
pattern — in particular when the only package line is the last line
and has no trailing newline — repackage returns its input unchanged. -/
theorem c10_no_match_unchanged (s pkg : Text) (h : pkgMatchFree s = true) :
    repackage s pkg = s :=
  repackage_of_matchFree pkg h

/-- C10 claim at a concrete input: a file whose package declaration is
the final line without a trailing newline is left unchanged. -/
theorem c10_witness :
    pkgMatchFree (strLit "package stack") = true ∧
    repackage (strLit "package stack") (strLit "foo") = strLit "package stack" :=
  ⟨by decide, c10_no_match_unchanged _ _ (by decide)⟩

end Golem
